import Mathlib

/-!
Verification development for the nx-archive library (Nintendo Switch
container reader).  The definitions below are shallow embeddings of the
Rust sources: byte streams are `List Nat` (each element < 256 in intended
use), machine integers are `Nat` with explicit reductions modulo `2 ^ 32`,
`2 ^ 64` or `2 ^ 128` where the Rust code wraps, and fallible operations
return `Option` / `Except`.  AES-128 itself lives in an external crate
(`aes`), so block-cipher applications are parameters of the embedded
functions; everything layered on top of the block cipher (CTR streaming,
XTS sector processing, header parsing, hashing, lookup) is translated
from the repository's own code.
-/

/-! ### Generic byte-list helpers -/

/-- Default-zero indexing into a byte list (models indexing into a Rust
slice whose elements we inspect only at in-bounds positions). -/
def byteAt (l : List Nat) (i : Nat) : Nat :=
  l.getD i 0

/-- `read_exact`-style bounded slice: `some` of `len` bytes starting at
`off`, or `none` when the source is too short. -/
def bytesAt (bytes : List Nat) (off len : Nat) : Option (List Nat) :=
  if off + len ≤ bytes.length then some ((bytes.drop off).take len) else none

/-- Little-endian `u32` at `off` (models `read_le::<u32>`). -/
def readU32At (bytes : List Nat) (off : Nat) : Option Nat :=
  match bytesAt bytes off 4 with
  | some l => some (byteAt l 0 + 256 * (byteAt l 1 + 256 * (byteAt l 2 + 256 * byteAt l 3)))
  | none => none

/-- Little-endian `u64` at `off` (models `read_le::<u64>`). -/
def readU64At (bytes : List Nat) (off : Nat) : Option Nat :=
  match bytesAt bytes off 8 with
  | some l => some (byteAt l 0 + 256 * (byteAt l 1 + 256 * (byteAt l 2 + 256 * (byteAt l 3 +
      256 * (byteAt l 4 + 256 * (byteAt l 5 + 256 * (byteAt l 6 + 256 * byteAt l 7)))))))
  | none => none

/-! ### `src/io.rs`: alignment helpers and the AES-128-CTR reader -/

/-- `align_down` from `src/io.rs` (`value & !(align - 1)`); for the
power-of-two alignments used by the code this is `value - value % align`. -/
def alignDown (value align : Nat) : Nat :=
  value - value % align

/-- `align_up` from `src/io.rs` (`(value + (align - 1)) & !(align - 1)`). -/
def alignUp (value align : Nat) : Nat :=
  alignDown (value + (align - 1)) align

/-- `get_nintendo_tweak` from `src/io.rs` / `src/formats/keyset.rs`:
the `u128` sector index serialized as 16 big-endian bytes. -/
def getNintendoTweak (sectorIndex : Nat) : List Nat :=
  (List.range 16).map fun i => sectorIndex % 2 ^ 128 / 2 ^ (8 * (15 - i)) % 256

/-- One keystream byte of `Ctr128BE` (the `ctr` crate used by
`Aes128CtrReader::read`): starting from the 128-bit big-endian counter
`ivInt`, byte `j` of the keystream comes from block `ivInt + j / 16`
(the counter wraps modulo `2 ^ 128`) at intra-block position `j % 16`.
`aes` is the AES-128 block encryption of the external `aes` crate. -/
def ctrKsByte (aes : List Nat → List Nat → List Nat) (key : List Nat)
    (ivInt j : Nat) : Nat :=
  byteAt (aes key (getNintendoTweak ((ivInt + j / 16) % 2 ^ 128))) (j % 16)

/-- `apply_keystream` of `Ctr128BE` starting at counter `ivInt`, byte
index `j` within the buffer. -/
def ctrApplyKsFrom (aes : List Nat → List Nat → List Nat) (key : List Nat)
    (ivInt : Nat) : Nat → List Nat → List Nat
  | _, [] => []
  | j, b :: rest => (b ^^^ ctrKsByte aes key ivInt j) :: ctrApplyKsFrom aes key ivInt (j + 1) rest

/-- `apply_keystream` over a whole buffer (fresh cipher, counter `ivInt`). -/
def ctrApplyKeystream (aes : List Nat → List Nat → List Nat) (key : List Nat)
    (ivInt : Nat) (data : List Nat) : List Nat :=
  ctrApplyKsFrom aes key ivInt 0 data

/-- Keystream byte tied to an absolute source offset `o`: block
`(ctrHi <<< 64) ||| (o >>> 4)`, byte `o % 16`.  This is the keystream the
reader effectively applies at absolute offset `o` of its source. -/
def absCtrKsByte (aes : List Nat → List Nat → List Nat) (key : List Nat)
    (ctrHi o : Nat) : Nat :=
  byteAt (aes key (getNintendoTweak (ctrHi % 2 ^ 64 * 2 ^ 64 + o / 16))) (o % 16)

/-- AES-128-CTR encryption of a plaintext stream whose first byte sits at
absolute source offset `o` (keystream positions follow absolute offsets).
For a 16-byte-aligned start this coincides with `Ctr128BE` encryption
from IV `(ctrHi <<< 64) ||| (o >>> 4)`. -/
def ctrEncryptFromAbs (aes : List Nat → List Nat → List Nat) (key : List Nat)
    (ctrHi : Nat) : Nat → List Nat → List Nat
  | _, [] => []
  | o, b :: rest => (b ^^^ absCtrKsByte aes key ctrHi o) :: ctrEncryptFromAbs aes key ctrHi (o + 1) rest

/-- AES-128-CTR ciphertext of `plaintext` placed at absolute offset `base`. -/
def ctrEncryptAbs (aes : List Nat → List Nat → List Nat) (key : List Nat)
    (ctrHi base : Nat) (plaintext : List Nat) : List Nat :=
  ctrEncryptFromAbs aes key ctrHi base plaintext

/-- Error cases of `Aes128CtrReader::read` in the embedding (the only
fallible step over an in-memory cursor is the key-length check). -/
inductive CtrReadErr
  | invalidKeyLength
  deriving DecidableEq, Repr

/-- `aligned_offset` local of `Aes128CtrReader::read`. -/
def ctrReadAligned (pos : Nat) : Nat :=
  alignDown pos 16

/-- `read_buf_size` local of `Aes128CtrReader::read`
(`align_up(buf.len() + diff, 0x10)`). -/
def ctrReadSize (pos bufLen : Nat) : Nat :=
  alignUp (bufLen + (pos - ctrReadAligned pos)) 16

/-- Number of bytes the underlying cursor supplies for the aligned read
(`read` on an in-memory source returns `min(requested, remaining)`). -/
def ctrReadCount (source : List Nat) (pos bufLen : Nat) : Nat :=
  min (ctrReadSize pos bufLen) (source.length - ctrReadAligned pos)

/-- The `read_buf` contents after the aligned read: the bytes actually
read, followed by the untouched zero-initialised tail. -/
def ctrReadBuf (source : List Nat) (pos bufLen : Nat) : List Nat :=
  (source.drop (ctrReadAligned pos)).take (ctrReadCount source pos bufLen) ++
    List.replicate (ctrReadSize pos bufLen - ctrReadCount source pos bufLen) 0

/-- The 128-bit counter value `(aligned_offset >> 4) | (ctr << 64)`
(`ctr` is a `u64`, `aligned_offset` a `u64`, so the two parts are
disjoint and `|||` equals `+`). -/
def ctrReadIv (ctrHi pos : Nat) : Nat :=
  ctrHi % 2 ^ 64 * 2 ^ 64 + ctrReadAligned pos / 16

/-- The bytes copied into the caller's buffer: the central slice
`read_buf[diff .. diff + buf.len()]` of the decrypted aligned window. -/
def ctrReadOut (aes : List Nat → List Nat → List Nat) (key : List Nat)
    (ctrHi : Nat) (source : List Nat) (pos bufLen : Nat) : List Nat :=
  ((ctrApplyKeystream aes key (ctrReadIv ctrHi pos) (ctrReadBuf source pos bufLen)).drop
      (pos - ctrReadAligned pos)).take bufLen

/-- The reader's logical offset after `read`: `seek(Current(-diff))`
followed by `seek(Current(read_size - read_buf_size_diff))`, i.e.
`aligned + read_size - (read_buf_size - read_buf_size_raw)` computed in
`i64` and stored in a `u64` (hence the wrap modulo `2 ^ 64`). -/
def ctrReadNewPos (source : List Nat) (pos bufLen : Nat) : Nat :=
  (((ctrReadAligned pos : Int) + ctrReadCount source pos bufLen -
      (ctrReadSize pos bufLen - (bufLen + (pos - ctrReadAligned pos)))).emod (2 ^ 64)).toNat

/-- `Aes128CtrReader::read` from `src/io.rs`, entered with the reader's
offset and underlying cursor both at absolute position `pos` (the
invariant the implementation maintains between calls).  Returns the
bytes written to the caller's buffer, the reader's new offset, and the
returned count `Ok(buf.len())`. -/
def aes128CtrRead (aes : List Nat → List Nat → List Nat) (key : List Nat)
    (ctrHi : Nat) (source : List Nat) (pos bufLen : Nat) :
    Except CtrReadErr (List Nat × Nat × Nat) :=
  if key.length = 16 then
    .ok (ctrReadOut aes key ctrHi source pos bufLen, ctrReadNewPos source pos bufLen, bufLen)
  else
    .error .invalidKeyLength

/-- Decidable equality of `aes128CtrRead` results, for evaluating the
model at concrete inputs. -/
instance : DecidableEq (Except CtrReadErr (List Nat × Nat × Nat)) :=
  fun a b =>
    match a, b with
    | .ok x, .ok y =>
      if h : x = y then .isTrue (by rw [h]) else .isFalse (fun hc => h (Except.ok.inj hc))
    | .error x, .error y =>
      if h : x = y then .isTrue (by rw [h]) else .isFalse (fun hc => h (Except.error.inj hc))
    | .ok _, .error _ => .isFalse (fun hc => Except.noConfusion hc)
    | .error _, .ok _ => .isFalse (fun hc => Except.noConfusion hc)

/-! ### `xts_mode`-style AES-XTS as used by `encrypt_with_header_key` /
`decrypt_with_header_key` (`src/formats/nca/mod.rs`) -/

/-- Pointwise XOR of two byte lists (`xor` over a 16-byte block). -/
def xorBytes (a b : List Nat) : List Nat :=
  List.zipWith (· ^^^ ·) a b

/-- The XTS tweak update between consecutive 16-byte blocks:
multiplication by x in GF(2^128), little-endian byte order. -/
def gfMul2 (t : List Nat) : List Nat :=
  (List.range 16).map fun i =>
    if i = 0 then byteAt t 0 * 2 % 256 ^^^ (if byteAt t 15 / 128 = 1 then 0x87 else 0)
    else byteAt t i * 2 % 256 + byteAt t (i - 1) / 128

/-- XTS processing of the full 16-byte blocks of one sector
(`encrypt_sector` body after the tweak has been encrypted): each block is
XORed with the running tweak, passed through the data cipher, XORed
again, and the tweak is stepped by `gfMul2`.  `fuel` bounds the recursion
(one unit per block suffices). -/
def xtsBlocks (cipher : List Nat → List Nat) : Nat → List Nat → List Nat → List Nat
  | 0, _, _ => []
  | fuel + 1, t, l =>
    if l.isEmpty then []
    else xorBytes (cipher (xorBytes (l.take 16) t)) t ++
      xtsBlocks cipher fuel (gfMul2 t) (l.drop 16)

/-- `Xts128::encrypt_sector`: the raw tweak is first encrypted with the
tweak cipher `enc2`, then the block loop runs with the data-encryption
cipher `enc1`.  (Sectors here are full multiples of 16 bytes, so the
ciphertext-stealing tail of the crate is never exercised.) -/
def xtsSectorEnc (enc1 enc2 : List Nat → List Nat) (tweak sector : List Nat) : List Nat :=
  xtsBlocks enc1 sector.length (enc2 tweak) sector

/-- `Xts128::decrypt_sector`: identical, with the data-decryption cipher
`dec1`; the tweak is still processed with the tweak *encryption*. -/
def xtsSectorDec (dec1 enc2 : List Nat → List Nat) (tweak sector : List Nat) : List Nat :=
  xtsBlocks dec1 sector.length (enc2 tweak) sector

/-- `Xts128::encrypt_area` with the Nintendo tweak function: sector `i`
(of `sector_size` bytes) uses tweak `get_nintendo_tweak(first + i)`. -/
def xtsAreaEnc (enc1 enc2 : List Nat → List Nat) (sectorSize : Nat) :
    Nat → Nat → List Nat → List Nat
  | 0, _, _ => []
  | fuel + 1, idx, l =>
    if l.isEmpty then []
    else xtsSectorEnc enc1 enc2 (getNintendoTweak idx) (l.take sectorSize) ++
      xtsAreaEnc enc1 enc2 sectorSize fuel (idx + 1) (l.drop sectorSize)

/-- `Xts128::decrypt_area` with the Nintendo tweak function. -/
def xtsAreaDec (dec1 enc2 : List Nat → List Nat) (sectorSize : Nat) :
    Nat → Nat → List Nat → List Nat
  | 0, _, _ => []
  | fuel + 1, idx, l =>
    if l.isEmpty then []
    else xtsSectorDec dec1 enc2 (getNintendoTweak idx) (l.take sectorSize) ++
      xtsAreaDec dec1 enc2 sectorSize fuel (idx + 1) (l.drop sectorSize)

/-- `encrypt_with_header_key` from `src/formats/nca/mod.rs`, with the
`header_key`-derived XTS pair abstracted as `enc1` (AES-128 encryption
under the first 16 bytes of the header key) and `enc2` (AES-128
encryption under the second half). -/
def encryptWithHeaderKey (enc1 enc2 : List Nat → List Nat)
    (data : List Nat) (sectorSize firstSectorIndex : Nat) : List Nat :=
  xtsAreaEnc enc1 enc2 sectorSize data.length firstSectorIndex data

/-- `decrypt_with_header_key` (the `Some` branch, i.e. a header key is
present): `dec1` is AES-128 decryption under the first half of the
header key, `enc2` as above. -/
def decryptWithHeaderKey (dec1 enc2 : List Nat → List Nat)
    (data : List Nat) (sectorSize firstSectorIndex : Nat) : List Nat :=
  xtsAreaDec dec1 enc2 sectorSize data.length firstSectorIndex data

/-- `decrypt_with_header_key` including its `None` branch: when
`keyset.header_crypt()` yields no cipher pair the function executes
`panic!("Failed to get header crypt")`, modelled as `none`. -/
def decryptWithHeaderKeyChecked (headerCrypt : Option ((List Nat → List Nat) × (List Nat → List Nat)))
    (data : List Nat) (sectorSize firstSectorIndex : Nat) : Option (List Nat) :=
  match headerCrypt with
  | some (dec1, enc2) => some (decryptWithHeaderKey dec1 enc2 data sectorSize firstSectorIndex)
  | none => none

/-! ### `src/formats/nca/mod.rs`: key generation and payload location -/

/-- `NcaHeader::get_key_generation`: the larger of the two key-generation
bytes, minus one when positive ("Both 0 and 1 are master key 0"). -/
def ncaHeaderGetKeyGeneration (keyGenerationOld keyGeneration : Nat) : Nat :=
  let baseKeyGen := if keyGenerationOld < keyGeneration then keyGeneration else keyGenerationOld
  if baseKeyGen > 0 then baseKeyGen - 1 else baseKeyGen

/-- `Nca::get_key_generation`: same shape, but the guard compares the
maximum against 1 instead of 0. -/
def ncaGetKeyGeneration (keyGenerationOld keyGeneration : Nat) : Nat :=
  let baseKeyGen := if keyGenerationOld < keyGeneration then keyGeneration else keyGenerationOld
  if baseKeyGen > 1 then baseKeyGen - 1 else baseKeyGen

/-- Modelled from the spec: `eff = max(legacy, current); if eff > 0 then
eff - 1 else 0` (§3 "Effective key-generation"). -/
def specEffectiveKeyGeneration (legacy current : Nat) : Nat :=
  if max legacy current > 0 then max legacy current - 1 else 0

/-- A `(offset, size)` region of a `HierarchicalSha256` hash-data record. -/
structure NcaRegion where
  offset : Nat
  size : Nat
  deriving DecidableEq, Repr

/-- One level-info record of a `HierarchicalIntegrity` (IVFC) hash-data
record. -/
structure IntegrityLevel where
  logicalOffset : Nat
  size : Nat
  blockSizeLog2 : Nat
  deriving DecidableEq, Repr

/-- The hash-data union of an NCA filesystem-section header, restricted
to the fields `Nca::prepare_fs_reader` consumes (master hashes, block
sizes and layer counts are not read when locating the payload). -/
inductive NcaHashData
  | hierarchicalSha256Hash (layerRegions : List NcaRegion)
  | hierarchicalIntegrity (levels : List IntegrityLevel)
  deriving DecidableEq, Repr

/-- The payload region computed by `Nca::prepare_fs_reader`: absolute
offset (`match` on the hash data plus `fs_start_offset`) and size.
`HierarchicalSha256` reads `layer_regions[0]`; `HierarchicalIntegrity`
reads `levels.last().unwrap()` (`none` models the panic on an empty
level list). -/
def prepareFsPayload (hashData : NcaHashData) (fsStartOffset : Nat) : Option (Nat × Nat) :=
  match hashData with
  | .hierarchicalSha256Hash layerRegions =>
    (layerRegions.head?).map fun r => (r.offset + fsStartOffset, r.size)
  | .hierarchicalIntegrity levels =>
    (levels.getLast?).map fun l => (l.logicalOffset + fsStartOffset, l.size)

/-! ### `src/formats/romfs.rs`: name hashing and path lookup -/

/-- `u32::rotate_right(5)` on a value reduced to 32 bits. -/
def u32rotr5 (x : Nat) : Nat :=
  x % 2 ^ 32 / 2 ^ 5 + x % 2 ^ 5 * 2 ^ 27

/-- `RomFs::compute_hash`: `hash = parent ^ 123456789`, then for every
name byte `hash = hash.rotate_right(5); hash ^= b`, finally
`hash % table_size`.  A zero `table_size` makes the Rust `%` panic,
modelled as `none`. -/
def romfsComputeHash (parent : Nat) (name : List Nat) (tableSize : Nat) : Option Nat :=
  if tableSize = 0 then none
  else some ((name.foldl (fun h b => u32rotr5 h ^^^ b) (parent % 2 ^ 32 ^^^ 123456789)) % tableSize)

/-- Modelled from the spec (§ "Name hashing", quoted by the claim): start
from `rotate_right_5(parent XOR 0x075BCD15)`, then for each byte rotate
and XOR, and reduce modulo the table length. -/
def specRomfsNameHash (parent : Nat) (name : List Nat) (tableLen : Nat) : Nat :=
  (name.foldl (fun h b => u32rotr5 h ^^^ b) (u32rotr5 (parent % 2 ^ 32 ^^^ 123456789))) % tableLen

/-- The amended hash function, written as the claim's loop: the state
starts at `parent XOR 0x075BCD15` (no initial rotation) and each name
byte first rotates and then XORs. -/
def romfsHashAmendedCore : Nat → List Nat → Nat
  | h, [] => h
  | h, b :: rest => romfsHashAmendedCore (u32rotr5 h ^^^ b) rest

/-- Amended spec hash: seed `parent XOR 123456789`, per-byte
rotate-then-XOR, result modulo the table length. -/
def romfsHashAmended (parent : Nat) (name : List Nat) (tableLen : Nat) : Nat :=
  romfsHashAmendedCore (parent % 2 ^ 32 ^^^ 123456789) name % tableLen

/-- Errors of the RomFS lookup path.  `unwind` stands for a Rust panic
(the `% 0` in `compute_hash`); `loopFuelOut` is the embedding's fuel
bound standing for a non-terminating cyclic hash chain. -/
inductive RomFsErr
  | notFound
  | invalidData
  | parseError
  | unwind
  | loopFuelOut
  deriving DecidableEq, Repr

/-- A parsed RomFS directory entry (names kept as raw bytes; the UTF-8
decoding step of the source is identity on the valid-UTF-8 inputs the
lookup compares against). -/
structure RomFsDirEntry where
  parentOffset : Nat
  siblingOffset : Nat
  childDirOffset : Nat
  childFileOffset : Nat
  hashSiblingOffset : Nat
  name : List Nat
  deriving DecidableEq, Repr

/-- A parsed RomFS file entry. -/
structure RomFsFileEntry where
  parentOffset : Nat
  siblingOffset : Nat
  dataOffset : Nat
  dataSize : Nat
  hashSiblingOffset : Nat
  name : List Nat
  deriving DecidableEq, Repr

/-- The state `RomFs::from_reader` leaves behind: the raw byte source,
the two table offsets from the header, and the two in-memory hash
tables. -/
structure RomFsModel where
  bytes : List Nat
  dirTableOffset : Nat
  fileTableOffset : Nat
  dirHashTable : List Nat
  fileHashTable : List Nat
  deriving DecidableEq, Repr

/-- `u32::MAX`, the end-of-chain sentinel `RomFs::INVALID_ENTRY`. -/
def romfsInvalidEntry : Nat := 4294967295

/-- `RomFs::read_dir_entry`: parse the directory entry at
`dir_table_offset + offset` (five `u32` links, a `u32` name size, then
the name bytes); any short read is a parse error. -/
def readDirEntry (r : RomFsModel) (offset : Nat) : Except RomFsErr RomFsDirEntry :=
  let base := r.dirTableOffset + offset
  match readU32At r.bytes base, readU32At r.bytes (base + 4), readU32At r.bytes (base + 8),
      readU32At r.bytes (base + 12), readU32At r.bytes (base + 16), readU32At r.bytes (base + 20) with
  | some parent, some sibling, some childDir, some childFile, some hashSibling, some nameSize =>
    match bytesAt r.bytes (base + 24) nameSize with
    | some name => .ok ⟨parent, sibling, childDir, childFile, hashSibling, name⟩
    | none => .error .parseError
  | _, _, _, _, _, _ => .error .parseError

/-- `RomFs::read_file_entry`: parse the file entry at
`file_table_offset + offset` (`u32`, `u32`, `u64`, `u64`, `u32`, `u32`
name size, name bytes). -/
def readFileEntry (r : RomFsModel) (offset : Nat) : Except RomFsErr RomFsFileEntry :=
  let base := r.fileTableOffset + offset
  match readU32At r.bytes base, readU32At r.bytes (base + 4), readU64At r.bytes (base + 8),
      readU64At r.bytes (base + 16), readU32At r.bytes (base + 24), readU32At r.bytes (base + 28) with
  | some parent, some sibling, some dataOffset, some dataSize, some hashSibling, some nameSize =>
    match bytesAt r.bytes (base + 32) nameSize with
    | some name => .ok ⟨parent, sibling, dataOffset, dataSize, hashSibling, name⟩
    | none => .error .parseError
  | _, _, _, _, _, _ => .error .parseError

/-- The `while current_offset != INVALID_ENTRY` chain walk of
`find_dir_in_parent`, with fuel standing for termination of the Rust
loop. -/
def dirChainWalk (r : RomFsModel) (parentOffset : Nat) (name : List Nat) :
    Nat → Nat → Except RomFsErr Nat
  | 0, _ => .error .loopFuelOut
  | fuel + 1, current =>
    if current = romfsInvalidEntry then .error .notFound
    else
      match readDirEntry r current with
      | .error e => .error e
      | .ok e =>
        if e.parentOffset = parentOffset ∧ e.name = name then .ok current
        else dirChainWalk r parentOffset name fuel e.hashSiblingOffset

/-- The chain walk of `find_file_in_dir`. -/
def fileChainWalk (r : RomFsModel) (parentOffset : Nat) (name : List Nat) :
    Nat → Nat → Except RomFsErr RomFsFileEntry
  | 0, _ => .error .loopFuelOut
  | fuel + 1, current =>
    if current = romfsInvalidEntry then .error .notFound
    else
      match readFileEntry r current with
      | .error e => .error e
      | .ok e =>
        if e.parentOffset = parentOffset ∧ e.name = name then .ok e
        else fileChainWalk r parentOffset name fuel e.hashSiblingOffset

/-- `RomFs::find_dir_in_parent`: hash `(parent, name)` into the directory
hash table (`none` from `compute_hash` is the `% 0` panic) and walk the
chain starting at `dir_hash_table[hash]`. -/
def findDirInParent (r : RomFsModel) (parentOffset : Nat) (name : List Nat) :
    Except RomFsErr Nat :=
  match romfsComputeHash parentOffset name r.dirHashTable.length with
  | none => .error .unwind
  | some h => dirChainWalk r parentOffset name (r.bytes.length + 2) (byteAt r.dirHashTable h)

/-- `RomFs::find_file_in_dir`. -/
def findFileInDir (r : RomFsModel) (parentOffset : Nat) (name : List Nat) :
    Except RomFsErr RomFsFileEntry :=
  match romfsComputeHash parentOffset name r.fileHashTable.length with
  | none => .error .unwind
  | some h => fileChainWalk r parentOffset name (r.bytes.length + 2) (byteAt r.fileHashTable h)

/-- `RomFs::find_dir` over pre-split path components: start at the root
offset 0; every error from `find_dir_in_parent` other than a panic is
wrapped into `NotFound` (the source wraps the error text into
`Error::NotFound`). -/
def findDir (r : RomFsModel) : List (List Nat) → Nat → Except RomFsErr Nat
  | [], current => .ok current
  | part :: rest, current =>
    match findDirInParent r current part with
    | .ok d => findDir r rest d
    | .error .unwind => .error .unwind
    | .error .loopFuelOut => .error .loopFuelOut
    | .error _ => .error .notFound

/-- `RomFs::get_file_by_path` over pre-split components: the last
component is the file name (an empty path has no file name, the source's
`Invalid path` error); a `NotFound` from either stage becomes
`Ok(None)`, other errors propagate. -/
def getFileByPath (r : RomFsModel) (components : List (List Nat)) :
    Except RomFsErr (Option RomFsFileEntry) :=
  match components.getLast? with
  | none => .error .invalidData
  | some fileName =>
    match findDir r components.dropLast 0 with
    | .ok parentOffset =>
      match findFileInDir r parentOffset fileName with
      | .ok f => .ok (some f)
      | .error .notFound => .ok none
      | .error e => .error e
    | .error .notFound => .ok none
    | .error e => .error e

/-- `RomFs::file_exists`: `get_file_by_path(path).is_ok()`. -/
def romfsFileExists (r : RomFsModel) (components : List (List Nat)) : Bool :=
  match getFileByPath r components with
  | .ok _ => true
  | .error _ => false

/-! ### `src/formats/pfs0.rs`: entry-name resolution -/

/-- `Pfs0Entry::get_name`: slice the string table at `name_offset`
(panics — `none` — when the offset exceeds the table length), then take
bytes up to the first NUL, or the whole remainder when none occurs. -/
def pfs0EntryName (stringTable : List Nat) (nameOffset : Nat) : Option (List Nat) :=
  if nameOffset > stringTable.length then none
  else some ((stringTable.drop nameOffset).takeWhile (fun b => b ≠ 0))

/-! ### `src/formats/xci.rs`: layout detection and the header magic -/

/-- The four magic bytes `"HEAD"`. -/
def headMagic : List Nat := [0x48, 0x45, 0x41, 0x44]

/-- The layout probe of `Xci::new`: read 4 bytes at `0x100`; on a match
the image is trimmed (`some false`); otherwise read 4 bytes at `0x1100`
and report whether they match (`some true` = full image with key area).
A failing `read_exact` (`none`) aborts construction. -/
def xciIsFullXci (bytes : List Nat) : Option Bool :=
  match bytesAt bytes 0x100 4 with
  | none => none
  | some m =>
    if m = headMagic then some false
    else
      match bytesAt bytes 0x1100 4 with
      | none => none
      | some m2 => some (m2 = headMagic)

/-- The `header_offset` chosen by `Xci::new`: `0x100` for a full image,
`0` for a trimmed one. -/
def xciHeaderOffset (bytes : List Nat) : Option Nat :=
  (xciIsFullXci bytes).map fun b => if b then 0x100 else 0

/-- The magic check performed while parsing `XciHeader` at
`header_offset`: after the `0x100`-byte signature the next four bytes
must be `"HEAD"`, otherwise `reader.read_le::<XciHeader>()` fails.  A
successful `Xci::new` requires this to be `some true`. -/
def xciHeaderMagicOk (bytes : List Nat) : Option Bool :=
  match xciHeaderOffset bytes with
  | none => none
  | some off =>
    match bytesAt bytes (off + 0x100) 4 with
    | none => none
    | some m => some (m = headMagic)

/-! ### `src/formats/keyset.rs`: `Keyset::from_reader` line handling -/

/-- ASCII whitespace for `str::trim` (the key files are ASCII). -/
def isWsChar (c : Char) : Bool :=
  c = ' ' || c = '\t' || c = '\r' || c = '\n'

/-- `str::trim` on a character list. -/
def trimChars (l : List Char) : List Char :=
  ((l.dropWhile isWsChar).reverse.dropWhile isWsChar).reverse

/-- `str::split(sep)`: always yields at least one (possibly empty)
piece. -/
def splitOnChar (sep : Char) : List Char → List (List Char)
  | [] => [[]]
  | c :: rest =>
    match splitOnChar sep rest with
    | [] => if c = sep then [[], []] else [[c]]
    | h :: t => if c = sep then [] :: h :: t else (c :: h) :: t

/-- Value of one hex digit (`hex::FromHex` accepts both cases). -/
def hexDigitVal (c : Char) : Option Nat :=
  let n := c.toNat
  if 48 ≤ n ∧ n ≤ 57 then some (n - 48)
  else if 97 ≤ n ∧ n ≤ 102 then some (n - 87)
  else if 65 ≤ n ∧ n ≤ 70 then some (n - 55)
  else none

/-- `Vec::from_hex`: an even number of hex digits, two per byte. -/
def hexDecode : List Char → Option (List Nat)
  | [] => some []
  | [_] => none
  | c1 :: c2 :: rest =>
    match hexDigitVal c1, hexDigitVal c2, hexDecode rest with
    | some hi, some lo, some r => some ((hi * 16 + lo) :: r)
    | _, _, _ => none

/-- One iteration of the `Keyset::from_reader` loop: `none` when the line
is skipped (blank, `;`-comment, not exactly one `=`, or malformed hex —
the last only warned about), otherwise the `(name, bytes)` pair inserted
into `raw_keys`. -/
def processKeysetLine (line : List Char) : Option (List Char × List Nat) :=
  if trimChars line = [] then none
  else if (trimChars line).head? = some ';' then none
  else
    match splitOnChar '=' line with
    | [namePart, valuePart] =>
      match hexDecode (trimChars ((splitOnChar ';' (trimChars valuePart)).headD [])) with
      | some data => some (trimChars namePart, data)
      | none => none
    | _ => none

/-- The key/value pairs `Keyset::from_reader` accumulates, in line
order. -/
def keysetFromLines (lines : List (List Char)) : List (List Char × List Nat) :=
  lines.filterMap processKeysetLine

/-- Declarative description of the lines `Keyset::from_reader` actually
accepts (the amended form of the claim): the trimmed line is non-blank
and does not start with `;`, the raw line splits on `=` into exactly two
pieces, the key is the trimmed left piece, and the value is the hex
decoding of the right piece trimmed and truncated at the first `;`. -/
def KeysetLineAccepts (line : List Char) (k : List Char) (v : List Nat) : Prop :=
  trimChars line ≠ [] ∧ (trimChars line).head? ≠ some ';' ∧
    ∃ a b, splitOnChar '=' line = [a, b] ∧ k = trimChars a ∧
      hexDecode (trimChars ((splitOnChar ';' (trimChars b)).headD [])) = some v

/-! ### Concrete inputs used by witnesses and counterexamples -/

/-- A stand-in block cipher: the all-zero keystream block. -/
def aesZero : List Nat → List Nat → List Nat := fun _ _ => List.replicate 16 0

/-- A stand-in block cipher: bytewise complement of the input block. -/
def aesComp : List Nat → List Nat → List Nat := fun _ b => b.map fun x => 255 - x

/-- A 16-byte all-zero AES key. -/
def keyZero : List Nat := List.replicate 16 0

/-- A RomFS whose two hash tables hold a single end-of-chain sentinel:
every lookup completes and finds nothing. -/
def sampleRomFs : RomFsModel :=
  ⟨[], 0, 0, [romfsInvalidEntry], [romfsInvalidEntry]⟩

/-- The pre-split path `"a"`. -/
def samplePath : List (List Nat) := [[0x61]]

/-- A minimal trimmed XCI image: a `0x100`-byte signature followed by the
`"HEAD"` magic. -/
def trimmedXciImage : List Nat := List.replicate 0x100 0 ++ headMagic

/-- The full counterpart of `trimmedXciImage`: the same bytes preceded by
a `0x1000`-byte key area (all zero, so no stray `"HEAD"`). -/
def fullXciImage : List Nat := List.replicate 0x1000 0 ++ trimmedXciImage

/-- A 20-byte sample plaintext. -/
def samplePlaintext : List Nat := List.range 20

/-! ### Helper lemmas on byte lists -/

theorem byteAt_nil (i : Nat) : byteAt [] i = 0 := by
  simp [byteAt]

theorem byteAt_cons_zero (b : Nat) (l : List Nat) : byteAt (b :: l) 0 = b := rfl

theorem byteAt_cons_succ (b : Nat) (l : List Nat) (i : Nat) :
    byteAt (b :: l) (i + 1) = byteAt l i := rfl

theorem byteAt_append (a b : List Nat) (i : Nat) :
    byteAt (a ++ b) i = if i < a.length then byteAt a i else byteAt b (i - a.length) := by
  induction a generalizing i with
  | nil => simp
  | cons x xs ih =>
    cases i with
    | zero => simp [byteAt_cons_zero]
    | succ i =>
      rw [List.cons_append, byteAt_cons_succ, byteAt_cons_succ, ih]
      simp [Nat.succ_lt_succ_iff]

theorem byteAt_drop (l : List Nat) (k i : Nat) :
    byteAt (l.drop k) i = byteAt l (k + i) := by
  induction l generalizing k with
  | nil => simp [byteAt_nil]
  | cons x xs ih =>
    cases k with
    | zero => simp
    | succ k =>
      rw [List.drop_succ_cons, ih]
      have : k + 1 + i = (k + i) + 1 := by omega
      rw [this, byteAt_cons_succ]

theorem byteAt_take (l : List Nat) (k i : Nat) :
    byteAt (l.take k) i = if i < k then byteAt l i else 0 := by
  induction l generalizing k i with
  | nil => simp [byteAt_nil]
  | cons x xs ih =>
    cases k with
    | zero => simp [byteAt_nil]
    | succ k =>
      cases i with
      | zero => simp [byteAt_cons_zero]
      | succ i =>
        rw [List.take_succ_cons, byteAt_cons_succ, byteAt_cons_succ, ih]
        simp [Nat.succ_lt_succ_iff]

theorem byteAt_replicate (n i : Nat) : byteAt (List.replicate n 0) i = 0 := by
  induction n generalizing i with
  | zero => simp [byteAt_nil]
  | succ n ih =>
    cases i with
    | zero => rfl
    | succ i => rw [List.replicate_succ, byteAt_cons_succ]; exact ih i

theorem list_ext_byteAt : ∀ {l₁ l₂ : List Nat}, l₁.length = l₂.length →
    (∀ i, i < l₁.length → byteAt l₁ i = byteAt l₂ i) → l₁ = l₂
  | [], [], _, _ => rfl
  | [], _ :: _, h, _ => by simp at h
  | _ :: _, [], h, _ => by simp at h
  | a :: l₁, b :: l₂, h, hpt => by
    have h0 : a = b := hpt 0 (by simp)
    have ht : l₁ = l₂ := by
      refine list_ext_byteAt (by simpa using h) fun i hi => ?_
      have := hpt (i + 1) (by simpa using Nat.succ_lt_succ hi)
      simpa [byteAt_cons_succ] using this
    rw [h0, ht]

theorem xor_xor_cancel (a b : Nat) : a ^^^ b ^^^ b = a := by
  simp [Nat.xor_assoc]

/-! ### Lemmas about the CTR keystream application -/

theorem ctrApplyKsFrom_length (aes : List Nat → List Nat → List Nat) (key : List Nat)
    (ivInt : Nat) : ∀ (l : List Nat) (j : Nat),
    (ctrApplyKsFrom aes key ivInt j l).length = l.length := by
  intro l
  induction l with
  | nil => intro j; rfl
  | cons b rest ih => intro j; simp [ctrApplyKsFrom, ih]

theorem byteAt_ctrApplyKsFrom (aes : List Nat → List Nat → List Nat) (key : List Nat)
    (ivInt : Nat) : ∀ (l : List Nat) (j i : Nat), i < l.length →
    byteAt (ctrApplyKsFrom aes key ivInt j l) i = byteAt l i ^^^ ctrKsByte aes key ivInt (j + i) := by
  intro l
  induction l with
  | nil => intro j i hi; simp at hi
  | cons b rest ih =>
    intro j i hi
    cases i with
    | zero => simp [ctrApplyKsFrom, byteAt_cons_zero]
    | succ i =>
      have hi' : i < rest.length := by simpa using hi
      rw [ctrApplyKsFrom, byteAt_cons_succ, byteAt_cons_succ, ih (j + 1) i hi']
      have : j + 1 + i = j + (i + 1) := by omega
      rw [this]

theorem ctrEncryptFromAbs_length (aes : List Nat → List Nat → List Nat) (key : List Nat)
    (ctrHi : Nat) : ∀ (l : List Nat) (o : Nat),
    (ctrEncryptFromAbs aes key ctrHi o l).length = l.length := by
  intro l
  induction l with
  | nil => intro o; rfl
  | cons b rest ih => intro o; simp [ctrEncryptFromAbs, ih]

theorem byteAt_ctrEncryptFromAbs (aes : List Nat → List Nat → List Nat) (key : List Nat)
    (ctrHi : Nat) : ∀ (l : List Nat) (o i : Nat), i < l.length →
    byteAt (ctrEncryptFromAbs aes key ctrHi o l) i = byteAt l i ^^^ absCtrKsByte aes key ctrHi (o + i) := by
  intro l
  induction l with
  | nil => intro o i hi; simp at hi
  | cons b rest ih =>
    intro o i hi
    cases i with
    | zero => simp [ctrEncryptFromAbs, byteAt_cons_zero]
    | succ i =>
      have hi' : i < rest.length := by simpa using hi
      rw [ctrEncryptFromAbs, byteAt_cons_succ, byteAt_cons_succ, ih (o + 1) i hi']
      have : o + 1 + i = o + (i + 1) := by omega
      rw [this]

theorem byteAt_map_range (f : Nat → Nat) (n i : Nat) :
    byteAt ((List.range n).map f) i = if i < n then f i else 0 := by
  induction n generalizing i with
  | zero => simp [byteAt_nil]
  | succ n ih =>
    rw [List.range_succ, List.map_append]
    rw [byteAt_append]
    simp only [List.length_map, List.length_range, List.map_cons, List.map_nil]
    by_cases h : i < n
    · rw [if_pos h, if_pos (by omega), ih, if_pos h]
    · rw [if_neg h]
      by_cases h2 : i = n
      · subst h2
        simp [byteAt_cons_zero]
      · rw [if_neg (by omega)]
        have : i - n ≠ 0 := by omega
        cases hk : i - n with
        | zero => omega
        | succ k => rw [byteAt_cons_succ, byteAt_nil]

theorem ctrReadBuf_length (src : List Nat) (P n : Nat) :
    (ctrReadBuf src P n).length = ctrReadSize P n := by
  have hC : ctrReadCount src P n = min (ctrReadSize P n) (src.length - ctrReadAligned P) := rfl
  simp only [ctrReadBuf, List.length_append, List.length_take, List.length_drop,
    List.length_replicate]
  omega

theorem ctrReadOut_abs (aes : List Nat → List Nat → List Nat) (key : List Nat)
    (ctrHi : Nat) (src : List Nat) (P n : Nat)
    (hfit : P + n ≤ src.length) (hP64 : P + n < 2 ^ 64) :
    ctrReadOut aes key ctrHi src P n
      = (List.range n).map fun i => byteAt src (P + i) ^^^ absCtrKsByte aes key ctrHi (P + i) := by
  have hA : ctrReadAligned P = P - P % 16 := rfl
  have hS : ctrReadSize P n
      = n + (P - (P - P % 16)) + 15 - (n + (P - (P - P % 16)) + 15) % 16 := rfl
  have hC : ctrReadCount src P n = min (ctrReadSize P n) (src.length - ctrReadAligned P) := rfl
  have hble : (ctrReadBuf src P n).length = ctrReadSize P n := ctrReadBuf_length src P n
  have hdn : P - ctrReadAligned P + n ≤ ctrReadCount src P n := by omega
  refine list_ext_byteAt ?_ ?_
  · simp only [ctrReadOut, List.length_take, List.length_drop, List.length_map,
      List.length_range, ctrApplyKeystream]
    rw [ctrApplyKsFrom_length]
    omega
  · intro i hi
    have hin : i < n := by
      simp only [ctrReadOut, List.length_take, List.length_drop, ctrApplyKeystream] at hi
      rw [ctrApplyKsFrom_length] at hi
      omega
    simp only [ctrReadOut, ctrApplyKeystream]
    rw [byteAt_take, if_pos hin, byteAt_drop]
    rw [byteAt_ctrApplyKsFrom aes key (ctrReadIv ctrHi P) (ctrReadBuf src P n)
      0 (P - ctrReadAligned P + i) (by omega)]
    rw [byteAt_map_range, if_pos hin]
    simp only [ctrReadBuf]
    rw [byteAt_append]
    have hTlen : ((src.drop (ctrReadAligned P)).take (ctrReadCount src P n)).length
        = ctrReadCount src P n := by
      simp only [List.length_take, List.length_drop]
      omega
    rw [hTlen, if_pos (by omega), byteAt_take, if_pos (by omega), byteAt_drop]
    have hPA : ctrReadAligned P + (P - ctrReadAligned P + i) = P + i := by omega
    rw [hPA]
    have e2 : (P - ctrReadAligned P + i) % 16 = (P + i) % 16 := by omega
    have e1 : (ctrReadIv ctrHi P + (P - ctrReadAligned P + i) / 16) % 2 ^ 128
        = ctrHi % 2 ^ 64 * 2 ^ 64 + (P + i) / 16 := by
      simp only [ctrReadIv]
      omega
    simp only [Nat.zero_add, ctrKsByte, absCtrKsByte, e1, e2]

theorem ctrReadNewPos_of_fit (source : List Nat) (pos bufLen : Nat)
    (hfit : alignUp (pos + bufLen) 16 ≤ source.length)
    (hlt : pos + bufLen < 2 ^ 64) :
    ctrReadNewPos source pos bufLen = pos + bufLen := by
  have hA : ctrReadAligned pos = pos - pos % 16 := rfl
  have hS : ctrReadSize pos bufLen
      = bufLen + (pos - (pos - pos % 16)) + 15 - (bufLen + (pos - (pos - pos % 16)) + 15) % 16 := rfl
  have hC : ctrReadCount source pos bufLen
      = min (ctrReadSize pos bufLen) (source.length - ctrReadAligned pos) := rfl
  have hal : alignUp (pos + bufLen) 16 = pos + bufLen + 15 - (pos + bufLen + 15) % 16 := rfl
  have hX : (↑(ctrReadAligned pos) + ↑(ctrReadCount source pos bufLen) -
      (↑(ctrReadSize pos bufLen) - (↑bufLen + ((pos : Int) - ↑(ctrReadAligned pos)))) : Int)
      = ((pos + bufLen : Nat) : Int) := by
    omega
  unfold ctrReadNewPos
  rw [hX]
  have h2 : Int.emod ((pos + bufLen : Nat) : Int) (2 ^ 64) = ((pos + bufLen : Nat) : Int) :=
    Int.emod_eq_of_lt (Int.natCast_nonneg _) (by exact_mod_cast hlt)
  rw [h2]
  omega

/-- C1 (amended): reading `n` bytes at logical position `pos` from an
`Aes128CtrReader` layered at `base_offset = pad.length` over the
AES-128-CTR ciphertext of `plaintext` (keystream blocks indexed by
absolute source offset, IV `(ctr_hi <<< 64) ||| (aligned_offset >>> 4)`)
returns exactly `plaintext[pos..pos+n]` for every `pos`, `n` with
`pos + n ≤ len(plaintext)`, including positions not aligned to 16; the
final logical position equals `pos + n` *provided* the 16-byte-aligned
window of the read lies inside the source — when the aligned window
extends past end-of-source the short read leaves the position elsewhere
(see the counterexample). -/
theorem ctrReader_read_correct_amended
    (aes : List Nat → List Nat → List Nat) (key : List Nat) (ctrHi : Nat)
    (pad plaintext : List Nat) (pos n : Nat)
    (hkey : key.length = 16)
    (hpn : pos + n ≤ plaintext.length)
    (hbound : pad.length + plaintext.length < 2 ^ 64) :
    aes128CtrRead aes key ctrHi (pad ++ ctrEncryptAbs aes key ctrHi pad.length plaintext)
        (pad.length + pos) n
      = .ok ((plaintext.drop pos).take n,
          ctrReadNewPos (pad ++ ctrEncryptAbs aes key ctrHi pad.length plaintext)
            (pad.length + pos) n, n)
    ∧ (alignUp (pad.length + pos + n) 16 ≤ pad.length + plaintext.length →
        ctrReadNewPos (pad ++ ctrEncryptAbs aes key ctrHi pad.length plaintext)
          (pad.length + pos) n = pad.length + pos + n) := by
  have hctlen : (ctrEncryptAbs aes key ctrHi pad.length plaintext).length = plaintext.length :=
    ctrEncryptFromAbs_length aes key ctrHi plaintext pad.length
  have hsrclen : (pad ++ ctrEncryptAbs aes key ctrHi pad.length plaintext).length
      = pad.length + plaintext.length := by
    simp [hctlen]
  constructor
  · unfold aes128CtrRead
    rw [if_pos hkey]
    have hout : ctrReadOut aes key ctrHi
        (pad ++ ctrEncryptAbs aes key ctrHi pad.length plaintext) (pad.length + pos) n
        = (plaintext.drop pos).take n := by
      rw [ctrReadOut_abs aes key ctrHi _ (pad.length + pos) n
        (by rw [hsrclen]; omega) (by omega)]
      refine list_ext_byteAt ?_ ?_
      · simp only [List.length_map, List.length_range, List.length_take, List.length_drop]
        omega
      · intro i hi
        have hin : i < n := by simpa using hi
        rw [byteAt_map_range, if_pos hin, byteAt_append]
        rw [if_neg (by omega)]
        have e0 : pad.length + pos + i - pad.length = pos + i := by omega
        rw [e0]
        simp only [ctrEncryptAbs]
        rw [byteAt_ctrEncryptFromAbs aes key ctrHi plaintext pad.length (pos + i) (by omega)]
        have e1 : pad.length + (pos + i) = pad.length + pos + i := by omega
        rw [e1, xor_xor_cancel]
        rw [byteAt_take, if_pos hin, byteAt_drop]
    rw [hout]
  · intro hfit
    exact ctrReadNewPos_of_fit _ (pad.length + pos) n (by rw [hsrclen]; exact hfit) (by omega)

/-- C1 witness: a misaligned 7-byte read at logical position 5 over a
16-byte-prefixed 20-byte plaintext, with a concrete (complement) block
cipher; the aligned window fits, so the position clause applies. -/
theorem ctrReader_read_correct_amended_witness :
    aes128CtrRead aesComp keyZero 0
        (keyZero ++ ctrEncryptAbs aesComp keyZero 0 keyZero.length samplePlaintext)
        (keyZero.length + 5) 7
      = .ok ((samplePlaintext.drop 5).take 7,
          ctrReadNewPos (keyZero ++ ctrEncryptAbs aesComp keyZero 0 keyZero.length samplePlaintext)
            (keyZero.length + 5) 7, 7)
    ∧ (alignUp (keyZero.length + 5 + 7) 16 ≤ keyZero.length + samplePlaintext.length →
        ctrReadNewPos (keyZero ++ ctrEncryptAbs aesComp keyZero 0 keyZero.length samplePlaintext)
          (keyZero.length + 5) 7 = keyZero.length + 5 + 7) :=
  ctrReader_read_correct_amended aesComp keyZero 0 keyZero samplePlaintext 5 7
    (by decide) (by decide) (by decide)

/-- C1 counterexample: reading the single byte of a 1-byte plaintext at
`base_offset = 0`, `pos = 0`, `n = 1` (so `pos + n ≤ len(plaintext)`)
returns the correct data and count, but the reader's logical position
afterwards is `2^64 - 14`, not `pos + n = 1`: the 16-byte aligned window
was answered by a 1-byte short read and the final
`seek(Current(read_size - read_buf_size_diff))` moved by `1 - 15`. -/
theorem ctrReader_position_counterexample :
    aes128CtrRead aesZero keyZero 0 (ctrEncryptAbs aesZero keyZero 0 0 [0xAB]) 0 1
      = .ok ([0xAB], 2 ^ 64 - 14, 1) ∧ (2 ^ 64 - 14 : Nat) ≠ 0 + 1 :=
  ⟨rfl, by decide⟩

/-- C9: whenever `Aes128CtrReader::read` returns `Ok(n)`, the count `n`
is the full requested buffer length — and the buffer is fully
overwritten — regardless of how few bytes the underlying source
supplied; the reader never reports a short read. -/
theorem ctrReader_full_count
    (aes : List Nat → List Nat → List Nat) (key : List Nat) (ctrHi : Nat)
    (source : List Nat) (pos bufLen : Nat)
    (out : List Nat) (newPos cnt : Nat)
    (h : aes128CtrRead aes key ctrHi source pos bufLen = .ok (out, newPos, cnt)) :
    cnt = bufLen ∧ out.length = bufLen := by
  unfold aes128CtrRead at h
  by_cases hk : key.length = 16
  · rw [if_pos hk] at h
    simp only [Except.ok.injEq, Prod.mk.injEq] at h
    obtain ⟨hout, hpos, hcnt⟩ := h
    refine ⟨hcnt.symm, ?_⟩
    rw [← hout]
    have hS : ctrReadSize pos bufLen
        = bufLen + (pos - (pos - pos % 16)) + 15 -
          (bufLen + (pos - (pos - pos % 16)) + 15) % 16 := rfl
    have hA : ctrReadAligned pos = pos - pos % 16 := rfl
    have hble := ctrReadBuf_length source pos bufLen
    simp only [ctrReadOut, ctrApplyKeystream, List.length_take, List.length_drop]
    rw [ctrApplyKsFrom_length]
    omega
  · rw [if_neg hk] at h
    simp at h

/-- C9 witness: a 3-byte read over an *empty* source (the underlying
read supplies zero bytes) still reports count 3 and fills the buffer. -/
theorem ctrReader_full_count_witness : (3 : Nat) = 3 ∧ ([0, 0, 0] : List Nat).length = 3 :=
  ctrReader_full_count aesZero keyZero 0 [] 0 3 [0, 0, 0] (2 ^ 64 - 13) 3 (by decide)

/-! ### Lemmas about the XTS embedding -/

theorem gfMul2_length (t : List Nat) : (gfMul2 t).length = 16 := by
  simp [gfMul2]

theorem getNintendoTweak_length (n : Nat) : (getNintendoTweak n).length = 16 := by
  simp [getNintendoTweak]

theorem xorBytes_length (a b : List Nat) : (xorBytes a b).length = min a.length b.length := by
  simp [xorBytes]

theorem xorBytes_cancel (a : List Nat) : ∀ t : List Nat, a.length ≤ t.length →
    xorBytes (xorBytes a t) t = a := by
  induction a with
  | nil => intro t h; simp [xorBytes]
  | cons x xs ih =>
    intro t h
    cases t with
    | nil => simp at h
    | cons y ys =>
      simp only [xorBytes, List.zipWith_cons_cons] at *
      rw [xor_xor_cancel]
      rw [ih ys (by simpa using h)]

theorem xtsBlocks_length (cipher : List Nat → List Nat)
    (hc : ∀ b, b.length = 16 → (cipher b).length = 16) :
    ∀ (fuel : Nat) (t l : List Nat), t.length = 16 → 16 ∣ l.length → l.length ≤ 16 * fuel →
    (xtsBlocks cipher fuel t l).length = l.length := by
  intro fuel
  induction fuel with
  | zero =>
    intro t l ht hd hf
    have : l = [] := List.eq_nil_of_length_eq_zero (by omega)
    subst this
    simp [xtsBlocks]
  | succ fuel ih =>
    intro t l ht hd hf
    cases l with
    | nil => simp [xtsBlocks]
    | cons x xs =>
      have hlen16 : 16 ≤ (x :: xs).length := by
        obtain ⟨k, hk⟩ := hd
        have : (x :: xs).length ≠ 0 := by simp
        omega
      simp only [xtsBlocks, List.isEmpty_cons, Bool.false_eq_true, if_false,
        List.length_append]
      have hblk : ((x :: xs).take 16).length = 16 := by
        simp only [List.length_take]
        omega
      have hxblk : (xorBytes ((x :: xs).take 16) t).length = 16 := by
        rw [xorBytes_length]; omega
      have hcl : (xorBytes (cipher (xorBytes ((x :: xs).take 16) t)) t).length = 16 := by
        rw [xorBytes_length, hc _ hxblk, ht]
        omega
      rw [hcl, ih (gfMul2 t) ((x :: xs).drop 16) (gfMul2_length t)
        (by simp only [List.length_drop]; omega)
        (by simp only [List.length_drop]; omega)]
      simp only [List.length_drop]
      omega

theorem xtsBlocks_cons_eq (cipher : List Nat → List Nat) (fuel : Nat) (t l : List Nat)
    (hne : l ≠ []) :
    xtsBlocks cipher (fuel + 1) t l
      = xorBytes (cipher (xorBytes (l.take 16) t)) t ++
        xtsBlocks cipher fuel (gfMul2 t) (l.drop 16) := by
  cases l with
  | nil => exact absurd rfl hne
  | cons y ys => simp [xtsBlocks]

theorem xtsBlocks_roundtrip (enc dec : List Nat → List Nat)
    (hencLen : ∀ b, b.length = 16 → (enc b).length = 16)
    (hdec : ∀ b, b.length = 16 → dec (enc b) = b) :
    ∀ (fuel : Nat) (t l : List Nat), t.length = 16 → 16 ∣ l.length → l.length ≤ 16 * fuel →
    xtsBlocks dec fuel t (xtsBlocks enc fuel t l) = l := by
  intro fuel
  induction fuel with
  | zero =>
    intro t l ht hd hf
    have : l = [] := List.eq_nil_of_length_eq_zero (by omega)
    subst this
    simp [xtsBlocks]
  | succ fuel ih =>
    intro t l ht hd hf
    cases l with
    | nil => simp [xtsBlocks]
    | cons x xs =>
      have hlen16 : 16 ≤ (x :: xs).length := by
        obtain ⟨k, hk⟩ := hd
        have : (x :: xs).length ≠ 0 := by simp
        omega
      have hblk : ((x :: xs).take 16).length = 16 := by
        simp only [List.length_take]; omega
      have hxblk : (xorBytes ((x :: xs).take 16) t).length = 16 := by
        rw [xorBytes_length]; omega
      have hcl : (xorBytes (enc (xorBytes ((x :: xs).take 16) t)) t).length = 16 := by
        rw [xorBytes_length, hencLen _ hxblk, ht]
        omega
      have henc_eq : xtsBlocks enc (fuel + 1) t (x :: xs)
          = xorBytes (enc (xorBytes ((x :: xs).take 16) t)) t ++
            xtsBlocks enc fuel (gfMul2 t) ((x :: xs).drop 16) := by
        simp [xtsBlocks]
      rw [henc_eq]
      have hAne : xorBytes (enc (xorBytes ((x :: xs).take 16) t)) t ++
          xtsBlocks enc fuel (gfMul2 t) ((x :: xs).drop 16) ≠ [] := by
        intro hcontra
        have := congrArg List.length hcontra
        simp only [List.length_append, List.length_nil] at this
        omega
      rw [xtsBlocks_cons_eq dec fuel t _ hAne]
      rw [List.take_left' hcl, List.drop_left' hcl]
      have hcancel1 : xorBytes (xorBytes (enc (xorBytes ((x :: xs).take 16) t)) t) t
          = enc (xorBytes ((x :: xs).take 16) t) := by
        apply xorBytes_cancel
        rw [hencLen _ hxblk, ht]
      rw [hcancel1, hdec _ hxblk]
      have hcancel2 : xorBytes (xorBytes ((x :: xs).take 16) t) t = (x :: xs).take 16 := by
        apply xorBytes_cancel
        omega
      rw [hcancel2]
      rw [ih (gfMul2 t) ((x :: xs).drop 16) (gfMul2_length t)
        (by simp only [List.length_drop]; omega)
        (by simp only [List.length_drop]; omega)]
      exact List.take_append_drop 16 (x :: xs)

theorem xtsSectorEnc_length (enc1 enc2 : List Nat → List Nat)
    (h1len : ∀ b, b.length = 16 → (enc1 b).length = 16)
    (h2len : ∀ b, b.length = 16 → (enc2 b).length = 16)
    (tweak sector : List Nat) (htw : tweak.length = 16) (hd : 16 ∣ sector.length) :
    (xtsSectorEnc enc1 enc2 tweak sector).length = sector.length :=
  xtsBlocks_length enc1 h1len sector.length (enc2 tweak) sector (h2len _ htw) hd (by omega)

theorem xtsSector_roundtrip (enc1 dec1 enc2 : List Nat → List Nat)
    (h1len : ∀ b, b.length = 16 → (enc1 b).length = 16)
    (h2len : ∀ b, b.length = 16 → (enc2 b).length = 16)
    (hdec : ∀ b, b.length = 16 → dec1 (enc1 b) = b)
    (tweak sector : List Nat) (htw : tweak.length = 16) (hd : 16 ∣ sector.length) :
    xtsSectorDec dec1 enc2 tweak (xtsSectorEnc enc1 enc2 tweak sector) = sector := by
  unfold xtsSectorEnc xtsSectorDec
  have hlen : (xtsBlocks enc1 sector.length (enc2 tweak) sector).length = sector.length :=
    xtsBlocks_length enc1 h1len sector.length (enc2 tweak) sector (h2len _ htw) hd (by omega)
  rw [hlen]
  exact xtsBlocks_roundtrip enc1 dec1 h1len hdec sector.length (enc2 tweak) sector
    (h2len _ htw) hd (by omega)

theorem xtsAreaDec_cons_eq (dec1 enc2 : List Nat → List Nat) (ss fuel idx : Nat)
    (l : List Nat) (hne : l ≠ []) :
    xtsAreaDec dec1 enc2 ss (fuel + 1) idx l
      = xtsSectorDec dec1 enc2 (getNintendoTweak idx) (l.take ss) ++
        xtsAreaDec dec1 enc2 ss fuel (idx + 1) (l.drop ss) := by
  cases l with
  | nil => exact absurd rfl hne
  | cons y ys => simp [xtsAreaDec]

theorem xtsAreaEnc_length (enc1 enc2 : List Nat → List Nat)
    (h1len : ∀ b, b.length = 16 → (enc1 b).length = 16)
    (h2len : ∀ b, b.length = 16 → (enc2 b).length = 16)
    (ss : Nat) (hss16 : 16 ∣ ss) (_hss0 : 0 < ss) :
    ∀ (fuel idx : Nat) (l : List Nat), ss ∣ l.length → l.length ≤ ss * fuel →
    (xtsAreaEnc enc1 enc2 ss fuel idx l).length = l.length := by
  intro fuel
  induction fuel with
  | zero =>
    intro idx l hd hf
    have : l = [] := List.eq_nil_of_length_eq_zero (by omega)
    subst this
    simp [xtsAreaEnc]
  | succ fuel ih =>
    intro idx l hd hf
    cases l with
    | nil => simp [xtsAreaEnc]
    | cons x xs =>
      have hpos : 0 < (x :: xs).length := by simp
      have hss_le : ss ≤ (x :: xs).length := Nat.le_of_dvd hpos hd
      have hsec_len : ((x :: xs).take ss).length = ss := by
        simp only [List.length_take]; omega
      have hS : (xtsSectorEnc enc1 enc2 (getNintendoTweak idx) ((x :: xs).take ss)).length = ss := by
        rw [xtsSectorEnc_length enc1 enc2 h1len h2len (getNintendoTweak idx) ((x :: xs).take ss)
          (getNintendoTweak_length idx) (by rw [hsec_len]; exact hss16)]
        exact hsec_len
      have hmul : ss * (fuel + 1) = ss * fuel + ss := by ring
      simp only [xtsAreaEnc, List.isEmpty_cons, Bool.false_eq_true, if_false, List.length_append]
      rw [hS, ih (idx + 1) ((x :: xs).drop ss)
        (by simp only [List.length_drop]; exact Nat.dvd_sub' hd dvd_rfl)
        (by simp only [List.length_drop]; omega)]
      simp only [List.length_drop]
      omega

theorem xtsArea_roundtrip (enc1 dec1 enc2 : List Nat → List Nat)
    (h1len : ∀ b, b.length = 16 → (enc1 b).length = 16)
    (h2len : ∀ b, b.length = 16 → (enc2 b).length = 16)
    (hdec : ∀ b, b.length = 16 → dec1 (enc1 b) = b)
    (ss : Nat) (hss16 : 16 ∣ ss) (hss0 : 0 < ss) :
    ∀ (fuel idx : Nat) (l : List Nat), ss ∣ l.length → l.length ≤ ss * fuel →
    xtsAreaDec dec1 enc2 ss fuel idx (xtsAreaEnc enc1 enc2 ss fuel idx l) = l := by
  intro fuel
  induction fuel with
  | zero =>
    intro idx l hd hf
    have : l = [] := List.eq_nil_of_length_eq_zero (by omega)
    subst this
    simp [xtsAreaEnc, xtsAreaDec]
  | succ fuel ih =>
    intro idx l hd hf
    cases l with
    | nil => simp [xtsAreaEnc, xtsAreaDec]
    | cons x xs =>
      have hpos : 0 < (x :: xs).length := by simp
      have hss_le : ss ≤ (x :: xs).length := Nat.le_of_dvd hpos hd
      have hsec_len : ((x :: xs).take ss).length = ss := by
        simp only [List.length_take]; omega
      have hS : (xtsSectorEnc enc1 enc2 (getNintendoTweak idx) ((x :: xs).take ss)).length = ss := by
        rw [xtsSectorEnc_length enc1 enc2 h1len h2len (getNintendoTweak idx) ((x :: xs).take ss)
          (getNintendoTweak_length idx) (by rw [hsec_len]; exact hss16)]
        exact hsec_len
      have hmul : ss * (fuel + 1) = ss * fuel + ss := by ring
      have henc_eq : xtsAreaEnc enc1 enc2 ss (fuel + 1) idx (x :: xs)
          = xtsSectorEnc enc1 enc2 (getNintendoTweak idx) ((x :: xs).take ss) ++
            xtsAreaEnc enc1 enc2 ss fuel (idx + 1) ((x :: xs).drop ss) := by
        simp [xtsAreaEnc]
      rw [henc_eq]
      have hne : xtsSectorEnc enc1 enc2 (getNintendoTweak idx) ((x :: xs).take ss) ++
          xtsAreaEnc enc1 enc2 ss fuel (idx + 1) ((x :: xs).drop ss) ≠ [] := by
        intro hcontra
        have := congrArg List.length hcontra
        simp only [List.length_append, List.length_nil] at this
        omega
      rw [xtsAreaDec_cons_eq dec1 enc2 ss fuel idx _ hne,
        List.take_left' hS, List.drop_left' hS]
      rw [xtsSector_roundtrip enc1 dec1 enc2 h1len h2len hdec (getNintendoTweak idx)
        ((x :: xs).take ss) (getNintendoTweak_length idx) (by rw [hsec_len]; exact hss16)]
      rw [ih (idx + 1) ((x :: xs).drop ss)
        (by simp only [List.length_drop]; exact Nat.dvd_sub' hd dvd_rfl)
        (by simp only [List.length_drop]; omega)]
      exact List.take_append_drop ss (x :: xs)

/-- C2: for every first sector index `s` and every data buffer whose
length is a multiple of `0x200`, `decrypt_with_header_key` after
`encrypt_with_header_key` under the same header key, sector size `0x200`
and first sector index is the identity, where the AES-XTS cipher pair
derived from the 32-byte header key `K` is abstracted as `enc1` / `dec1`
(AES-128 under `K[0..16]`) and `enc2` (AES-128 under `K[16..32]`), and
the tweak is the Nintendo tweak — the sector index serialized as 16
big-endian bytes. -/
theorem xts_header_roundtrip
    (enc1 dec1 enc2 : List Nat → List Nat)
    (h1len : ∀ b, b.length = 16 → (enc1 b).length = 16)
    (h2len : ∀ b, b.length = 16 → (enc2 b).length = 16)
    (hdec : ∀ b, b.length = 16 → dec1 (enc1 b) = b)
    (data : List Nat) (firstSectorIndex : Nat)
    (hlen : 0x200 ∣ data.length) :
    decryptWithHeaderKey dec1 enc2
        (encryptWithHeaderKey enc1 enc2 data 0x200 firstSectorIndex)
        0x200 firstSectorIndex = data := by
  unfold encryptWithHeaderKey decryptWithHeaderKey
  have hl : (xtsAreaEnc enc1 enc2 0x200 data.length firstSectorIndex data).length
      = data.length :=
    xtsAreaEnc_length enc1 enc2 h1len h2len 0x200 (by decide) (by decide)
      data.length firstSectorIndex data hlen (by omega)
  rw [hl]
  exact xtsArea_roundtrip enc1 dec1 enc2 h1len h2len hdec 0x200 (by decide) (by decide)
    data.length firstSectorIndex data hlen (by omega)

set_option maxRecDepth 4000 in
/-- C2 witness: the identity block cipher on a concrete one-sector
buffer (`0x200` bytes of `0x5A`) at first sector index 3. -/
theorem xts_header_roundtrip_witness :
    decryptWithHeaderKey id id
        (encryptWithHeaderKey id id (List.replicate 0x200 0x5A) 0x200 3) 0x200 3
      = List.replicate 0x200 0x5A :=
  xts_header_roundtrip id id id (fun _ h => h) (fun _ h => h) (fun _ _ => rfl)
    (List.replicate 0x200 0x5A) 3 (by decide)

/-- C3 (code bug): the effective key generation used for key selection —
`NcaHeader::get_key_generation`, called by `Nca::from_reader` for both
the key-area key and the title-KEK — equals the spec's
`max`-then-minus-one rule on every input; but the second implementation
`Nca::get_key_generation` guards with `> 1` instead of `> 0` and
disagrees at `max(legacy, current) = 1` (e.g. `key_generation_old =
0x01`, `key_generation = 0x00`), contradicting its own comment that both
0 and 1 are master key 0. -/
theorem keyGeneration_divergence :
    (∀ keyGenerationOld keyGeneration : Nat,
      ncaHeaderGetKeyGeneration keyGenerationOld keyGeneration
        = specEffectiveKeyGeneration keyGenerationOld keyGeneration)
    ∧ ncaGetKeyGeneration 1 0 = 1
    ∧ ncaHeaderGetKeyGeneration 1 0 = 0
    ∧ specEffectiveKeyGeneration 1 0 = 0 := by
  refine ⟨?_, by decide, by decide, by decide⟩
  intro old cur
  simp only [ncaHeaderGetKeyGeneration, specEffectiveKeyGeneration]
  split_ifs <;> omega

/-- C5 (code bug): three input-driven panic points of the core, each
modelled as `none`: `RomFs::compute_hash` computes `hash % 0` when a
hash table has size zero (which header validation does not reject);
`decrypt_with_header_key` executes a literal `panic!` when the keyset
has no header key; and `Pfs0Entry::get_name` indexes
`string_table[name_start..]` out of bounds when an entry's
`string_table_offset` exceeds the string table. -/
theorem core_panic_points :
    romfsComputeHash 0 [] 0 = none
    ∧ decryptWithHeaderKeyChecked none [] 0x200 0 = none
    ∧ pfs0EntryName [] 5 = none :=
  ⟨rfl, rfl, rfl⟩

/-- C6 counterexample: a `HierarchicalSha256` hash-data record with two
distinct layer regions; `Nca::prepare_fs_reader` locates the payload by
`layer_regions[0]` — the *first* region — not by the last one as the
claim states. -/
theorem sha256_payload_counterexample :
    prepareFsPayload (.hierarchicalSha256Hash [⟨0x1000, 0x2000⟩, ⟨0x3000, 0x4000⟩]) 0x8000
      = some (0x9000, 0x2000)
    ∧ prepareFsPayload (.hierarchicalSha256Hash [⟨0x1000, 0x2000⟩, ⟨0x3000, 0x4000⟩]) 0x8000
      ≠ some (0x3000 + 0x8000, 0x4000) := by
  refine ⟨rfl, by decide⟩

/-- C6 (amended): `Nca::prepare_fs_reader` locates the payload of a
`HierarchicalSha256` section by the *first* layer region's
`(offset, size)` and of a `HierarchicalIntegrity` (IVFC) section by the
final level's `(logical_offset, size)`, each relative to the section
start. -/
theorem payload_region_amended :
    (∀ (r : NcaRegion) (rest : List NcaRegion) (fsStart : Nat),
      prepareFsPayload (.hierarchicalSha256Hash (r :: rest)) fsStart
        = some (r.offset + fsStart, r.size))
    ∧ ∀ (ls : List IntegrityLevel) (lvl : IntegrityLevel) (fsStart : Nat),
      prepareFsPayload (.hierarchicalIntegrity (ls ++ [lvl])) fsStart
        = some (lvl.logicalOffset + fsStart, lvl.size) := by
  constructor
  · intro r rest fsStart
    rfl
  · intro ls lvl fsStart
    simp [prepareFsPayload, List.getLast?_concat]

/-- C7 counterexample: at `parent = 0`, `name = "a"`, table length 2 the
code's hash (`RomFs::compute_hash`) is 1 while the claim's function —
which applies an extra initial `rotate_right(5)` to
`parent XOR 0x075BCD15` before the per-byte loop — yields 0. -/
theorem romfs_hash_counterexample :
    romfsComputeHash 0 [0x61] 2 = some 1 ∧ specRomfsNameHash 0 [0x61] 2 = 0 := by
  refine ⟨rfl, by decide⟩

/-- C7 (amended): for every parent offset, name and non-empty table
length, `RomFs::compute_hash` equals the loop that *starts from*
`parent XOR 0x075BCD15` (no initial rotation) and, for each name byte,
first rotates right by 5 and then XORs, reduced modulo the table
length. -/
theorem romfs_hash_amended (parent : Nat) (name : List Nat) (tableLen : Nat)
    (h : tableLen ≠ 0) :
    romfsComputeHash parent name tableLen = some (romfsHashAmended parent name tableLen) := by
  unfold romfsComputeHash romfsHashAmended
  rw [if_neg h]
  have hfold : ∀ (l : List Nat) (h0 : Nat),
      l.foldl (fun h b => u32rotr5 h ^^^ b) h0 = romfsHashAmendedCore h0 l := by
    intro l
    induction l with
    | nil => intro h0; rfl
    | cons b rest ih => intro h0; simp [List.foldl_cons, romfsHashAmendedCore, ih]
  rw [hfold]

/-- C7 witness: the amended equation evaluated at `parent = 3`,
`name = "AB"`, table length 5. -/
theorem romfs_hash_amended_witness :
    romfsComputeHash 3 [0x41, 0x42] 5 = some (romfsHashAmended 3 [0x41, 0x42] 5) :=
  romfs_hash_amended 3 [0x41, 0x42] 5 (by decide)

theorem xciIsFullXci_of_trimmed (bytes m1 : List Nat)
    (h1 : bytesAt bytes 0x100 4 = some m1) (he : m1 = headMagic) :
    xciIsFullXci bytes = some false := by
  unfold xciIsFullXci
  rw [h1]
  show (if m1 = headMagic then some false
    else match bytesAt bytes 0x1100 4 with
      | none => none
      | some m2 => some (m2 = headMagic)) = some false
  rw [if_pos he]

theorem xciIsFullXci_of_probes (bytes m1 m2 : List Nat)
    (h1 : bytesAt bytes 0x100 4 = some m1) (hne : m1 ≠ headMagic)
    (h2 : bytesAt bytes 0x1100 4 = some m2) :
    xciIsFullXci bytes = some (decide (m2 = headMagic)) := by
  unfold xciIsFullXci
  rw [h1]
  show (if m1 = headMagic then some false
    else match bytesAt bytes 0x1100 4 with
      | none => none
      | some m2 => some (m2 = headMagic)) = some (decide (m2 = headMagic))
  rw [if_neg hne, h2]

theorem xciHeaderOffset_eq (bytes : List Nat) (b : Bool)
    (h : xciIsFullXci bytes = some b) :
    xciHeaderOffset bytes = some (if b then 0x100 else 0) := by
  unfold xciHeaderOffset
  rw [h]
  rfl

theorem xciHeaderMagicOk_of_offset (bytes : List Nat) (off : Nat) (m : List Nat)
    (h1 : xciHeaderOffset bytes = some off)
    (h2 : bytesAt bytes (off + 0x100) 4 = some m) :
    xciHeaderMagicOk bytes = some (decide (m = headMagic)) := by
  unfold xciHeaderMagicOk
  rw [h1]
  show (match bytesAt bytes (off + 0x100) 4 with
    | none => none
    | some m => some (m = headMagic)) = some (decide (m = headMagic))
  rw [h2]

/-- C4 (code bug): the layout probe of `Xci::new` detects a trimmed
image (magic at `0x100`) and a full image (magic at `0x1100`, a
`0x1000`-byte key area before the header), and the trimmed image's
header magic check passes; but for the full counterpart — identical
apart from the key-area preamble — `Xci::new` picks
`header_offset = 0x100` instead of `0x1000`, so the header parse reads
key-area bytes and its magic check fails: a full image cannot parse at
all, let alone agree with its trimmed counterpart. -/
theorem xci_full_header_parse_fails :
    xciHeaderMagicOk trimmedXciImage = some true
    ∧ xciIsFullXci fullXciImage = some true
    ∧ xciHeaderMagicOk fullXciImage = some false := by
  have hlen_t : trimmedXciImage.length = 0x104 := by
    unfold trimmedXciImage
    rw [List.length_append, List.length_replicate]
    rfl
  have hlen_f : fullXciImage.length = 0x1104 := by
    unfold fullXciImage
    rw [List.length_append, List.length_replicate, hlen_t]
  have hf_split : ∀ k : Nat, k ≤ 0x1000 →
      fullXciImage = List.replicate k 0 ++ (List.replicate (0x1000 - k) 0 ++ trimmedXciImage) := by
    intro k hk
    unfold fullXciImage
    rw [← List.append_assoc, ← List.replicate_add, Nat.add_sub_cancel' hk]
  have h_probe_t : bytesAt trimmedXciImage 0x100 4 = some headMagic := by
    unfold bytesAt
    rw [if_pos (by rw [hlen_t])]
    unfold trimmedXciImage
    rw [List.drop_left' (by rw [List.length_replicate])]
    rfl
  have h_probe_f1 : bytesAt fullXciImage 0x100 4 = some (List.replicate 4 0) := by
    unfold bytesAt
    rw [if_pos (by rw [hlen_f]; norm_num)]
    rw [hf_split 0x100 (by norm_num), List.drop_left' (by rw [List.length_replicate]),
      List.take_append_of_le_length (by rw [List.length_replicate]; norm_num),
      List.take_replicate]
    norm_num
  have h_probe_f2 : bytesAt fullXciImage 0x1100 4 = some headMagic := by
    unfold bytesAt
    rw [if_pos (by rw [hlen_f])]
    have hsplit2 : fullXciImage = List.replicate 0x1100 0 ++ headMagic := by
      unfold fullXciImage trimmedXciImage
      rw [← List.append_assoc, ← List.replicate_add]
    rw [hsplit2, List.drop_left' (by rw [List.length_replicate])]
    rfl
  have h_magic_f : bytesAt fullXciImage 0x200 4 = some (List.replicate 4 0) := by
    unfold bytesAt
    rw [if_pos (by rw [hlen_f]; norm_num)]
    rw [hf_split 0x200 (by norm_num), List.drop_left' (by rw [List.length_replicate]),
      List.take_append_of_le_length (by rw [List.length_replicate]; norm_num),
      List.take_replicate]
    norm_num
  have st1 : xciIsFullXci trimmedXciImage = some false :=
    xciIsFullXci_of_trimmed trimmedXciImage headMagic h_probe_t rfl
  have st2 : xciHeaderOffset trimmedXciImage = some 0 := by
    rw [xciHeaderOffset_eq trimmedXciImage false st1]
    rfl
  have st3 : xciHeaderMagicOk trimmedXciImage = some true := by
    rw [xciHeaderMagicOk_of_offset trimmedXciImage 0 headMagic st2
      (show bytesAt trimmedXciImage (0 + 0x100) 4 = some headMagic from h_probe_t)]
    decide
  have sf1 : xciIsFullXci fullXciImage = some true := by
    rw [xciIsFullXci_of_probes fullXciImage (List.replicate 4 0) headMagic h_probe_f1
      (by decide) h_probe_f2]
    decide
  have sf2 : xciHeaderOffset fullXciImage = some 0x100 := by
    rw [xciHeaderOffset_eq fullXciImage true sf1]
    rfl
  have sf3 : xciHeaderMagicOk fullXciImage = some false := by
    rw [xciHeaderMagicOk_of_offset fullXciImage 0x100 (List.replicate 4 0) sf2
      (show bytesAt fullXciImage (0x100 + 0x100) 4 = some (List.replicate 4 0) from h_magic_f)]
    decide
  exact ⟨st3, sf1, sf3⟩

/-- C8 counterexample: the comment line `"# x = aa"` — which begins with
`#` — is *not* skipped by `Keyset::from_reader`: only `;` is treated as
a comment marker, so the line splits on `=`, its hex value parses, and
the pair `("# x", [0xAA])` is inserted into the key map. -/
theorem keyset_comment_counterexample :
    keysetFromLines [[ '#', ' ', 'x', ' ', '=', ' ', 'a', 'a' ]]
      = [([ '#', ' ', 'x' ], [0xAA])] := by
  decide

/-- C8 (amended): a line contributes a key/value pair exactly when its
trimmed text is non-blank and does not start with `;` (the only comment
marker the code recognises; `#` and `//` lines are skipped only when
they fail the `=`-split), the raw line splits on `=` into exactly two
pieces, and the right piece — trimmed and truncated at the first `;` —
is well-formed hex; malformed hex lines are skipped with a warning and
parsing never fails. -/
theorem keyset_line_amended (line : List Char) (k : List Char) (v : List Nat) :
    processKeysetLine line = some (k, v) ↔ KeysetLineAccepts line k v := by
  unfold processKeysetLine KeysetLineAccepts
  constructor
  · intro h
    by_cases h1 : trimChars line = []
    · rw [if_pos h1] at h
      simp at h
    rw [if_neg h1] at h
    by_cases h2 : (trimChars line).head? = some ';'
    · rw [if_pos h2] at h
      simp at h
    rw [if_neg h2] at h
    refine ⟨h1, h2, ?_⟩
    cases hsplit : splitOnChar '=' line with
    | nil => rw [hsplit] at h; simp at h
    | cons a tail =>
      cases tail with
      | nil => rw [hsplit] at h; simp at h
      | cons b tail2 =>
        cases tail2 with
        | nil =>
          rw [hsplit] at h
          have h' : (match hexDecode (trimChars ((splitOnChar ';' (trimChars b)).headD [])) with
            | some data => some (trimChars a, data)
            | none => none) = some (k, v) := h
          cases hdec : hexDecode (trimChars ((splitOnChar ';' (trimChars b)).headD [])) with
          | none => rw [hdec] at h'; simp at h'
          | some data =>
            rw [hdec] at h'
            simp only [Option.some.injEq, Prod.mk.injEq] at h'
            obtain ⟨hk, hv⟩ := h'
            exact ⟨a, b, rfl, hk.symm, by rw [hdec, hv]⟩
        | cons c tail3 => rw [hsplit] at h; simp at h
  · rintro ⟨h1, h2, a, b, hsplit, hk, hdec⟩
    rw [if_neg h1, if_neg h2, hsplit]
    show (match hexDecode (trimChars ((splitOnChar ';' (trimChars b)).headD [])) with
      | some data => some (trimChars a, data)
      | none => none) = some (k, v)
    rw [hdec, hk]

/-- C8 witness: the well-formed line `"x = 0b"` is accepted with key
`"x"` and value `[0x0B]`. -/
theorem keyset_line_amended_witness :
    KeysetLineAccepts [ 'x', ' ', '=', ' ', '0', 'b' ] [ 'x' ] [0x0B] :=
  (keyset_line_amended [ 'x', ' ', '=', ' ', '0', 'b' ] [ 'x' ] [0x0B]).mp (by decide)

/-- C10: `RomFs::file_exists` is `get_file_by_path(path).is_ok()`, so
whenever `get_file_by_path` completes with `Ok(None)` (file absent, no
error) `file_exists` returns `true`, and `file_exists` is `false` only
when `get_file_by_path` did not return `Ok` at all; the concrete RomFS
with empty hash chains shows a `true` result for an absent file. -/
theorem fileExists_ok_none :
    (∀ (r : RomFsModel) (p : List (List Nat)),
      getFileByPath r p = .ok none → romfsFileExists r p = true)
    ∧ (∀ (r : RomFsModel) (p : List (List Nat)),
      romfsFileExists r p = false → ∀ v, getFileByPath r p ≠ .ok v)
    ∧ getFileByPath sampleRomFs samplePath = .ok none
    ∧ romfsFileExists sampleRomFs samplePath = true := by
  refine ⟨?_, ?_, ?_, ?_⟩
  · intro r p h
    unfold romfsFileExists
    rw [h]
  · intro r p h v hcontra
    unfold romfsFileExists at h
    rw [hcontra] at h
    simp at h
  · rfl
  · rfl

/-- C10 witness: the concrete lookup `"a"` in the empty-chain RomFS. -/
theorem fileExists_ok_none_witness : romfsFileExists sampleRomFs samplePath = true :=
  fileExists_ok_none.1 sampleRomFs samplePath rfl
